import Mathlib

/-!
Verification of the incremental SSE stream decoder of the cloud SDK
(crates/cloud-sdk/src/event_source.rs, `SseDecoder::decode`).

Byte strings are modelled as `List Nat` (one entry per byte).  The JSON
codec collaborator (serde_json in the source) is modelled abstractly as a
function `List Nat → ParseOutcome V` that either returns a value, fails
with an EOF-class (truncation) error, or fails for any other reason; the
theorems about `decode` are stated for an arbitrary such codec.  A small
concrete JSON codec `miniParse` is provided to instantiate the abstract
codec at concrete inputs.
-/

namespace SseDecode

/-- The newline byte, `b'\n'`. -/
def nlByte : Nat := 10

/-- The six bytes of the literal `b"data: "` field marker. -/
def dataMark : List Nat := [100, 97, 116, 97, 58, 32]

/-- Index of the first newline byte in a buffer; mirrors
`src.iter().position(|b| *b == b'\n')` in the source. -/
def nlPos : List Nat → Option Nat
  | [] => none
  | b :: rest => if b == nlByte then some 0 else (nlPos rest).map (fun i => i + 1)

/-- Outcome of the JSON codec collaborator on a byte slice: a decoded value,
a truncation-class failure (`serde_json::Error::is_eof()` true), or any
other parse failure. -/
inductive ParseOutcome (V : Type) : Type where
  | ok (v : V)
  | errEof
  | errOther
deriving DecidableEq

/-- Result of one `decode` call: `Ok(Some(json))`, `Ok(None)` (need more
data), or `Err(e)`. -/
inductive DecodeResult (V : Type) : Type where
  | produced (v : V)
  | needMoreData
  | error
deriving DecidableEq

/-- Shallow embedding of `SseDecoder::decode`.  The mutable `BytesMut`
buffer is passed in and the post-call buffer is returned alongside the
decode result.  Each branch mirrors the source:

* a first newline at `pos` splits the buffer into `split = src[..pos+1]`
  (kept in `src` by `split_off`) and `remainder = src[pos+1..]`;
  `line = split[..split.len()-1]` drops the newline;
* on a data line, a successful parse does `unsplit` then `advance(pos+1)`;
  an EOF-class failure does `truncate(split.len()-1)` (removing the
  newline) then `unsplit`; any other failure returns `Err` with `src`
  still equal to `split` and the split-off `remainder` dropped;
* a non-data line does `unsplit` then `advance(pos+1)`;
* with no newline, a buffer starting with `b"data: "` is parsed after the
  marker: success clears the buffer, an EOF-class failure leaves it
  untouched, any other failure returns `Err` leaving it untouched;
* an empty buffer or a newline-free non-data buffer is left untouched. -/
def decode {V : Type} (parse : List Nat → ParseOutcome V) (src : List Nat) :
    DecodeResult V × List Nat :=
  let nlIndex := nlPos src
  if src.isEmpty then
    (.needMoreData, src)
  else
    match nlIndex with
    | some pos =>
      let remainder := src.drop (pos + 1)
      let split := src.take (pos + 1)
      let line := split.take (split.length - 1)
      if dataMark.isPrefixOf line then
        match parse (line.drop 6) with
        | .ok v => (.produced v, (split ++ remainder).drop (pos + 1))
        | .errEof => (.needMoreData, line ++ remainder)
        | .errOther => (.error, split)
      else
        (.needMoreData, (split ++ remainder).drop (pos + 1))
    | none =>
      if dataMark.isPrefixOf src then
        match parse (src.drop 6) with
        | .ok v => (.produced v, [])
        | .errEof => (.needMoreData, src)
        | .errOther => (.error, src)
      else
        (.needMoreData, src)

/-- Guarded variant of `decode` in which every slice index, subtraction and
buffer advance of the source is preceded by an explicit bounds check; any
failed check yields `none` (the spot where the Rust code would panic).
`decodeChecked_eq` proves that no check ever fails. -/
def decodeChecked {V : Type} (parse : List Nat → ParseOutcome V) (src : List Nat) :
    Option (DecodeResult V × List Nat) :=
  let nlIndex := nlPos src
  if src.isEmpty then
    some (.needMoreData, src)
  else
    match nlIndex with
    | some pos =>
      if pos + 1 ≤ src.length then
        let remainder := src.drop (pos + 1)
        let split := src.take (pos + 1)
        if 1 ≤ split.length then
          let line := split.take (split.length - 1)
          if dataMark.isPrefixOf line then
            if 6 ≤ line.length then
              match parse (line.drop 6) with
              | .ok v =>
                if pos + 1 ≤ (split ++ remainder).length then
                  some (.produced v, (split ++ remainder).drop (pos + 1))
                else none
              | .errEof =>
                if 1 ≤ split.length then
                  some (.needMoreData, split.take (split.length - 1) ++ remainder)
                else none
              | .errOther => some (.error, split)
            else none
          else
            if pos + 1 ≤ (split ++ remainder).length then
              some (.needMoreData, (split ++ remainder).drop (pos + 1))
            else none
        else none
      else none
    | none =>
      if dataMark.isPrefixOf src then
        if 6 ≤ src.length then
          match parse (src.drop 6) with
          | .ok v => some (.produced v, [])
          | .errEof => some (.needMoreData, src)
          | .errOther => some (.error, src)
        else none
      else
        some (.needMoreData, src)

/-! ### A concrete JSON codec

`miniParse` is a small executable model of the external JSON collaborator
(`serde_json::from_slice::<serde_json::Value>` in the source), used only to
instantiate the abstract codec parameter at concrete byte strings.  It
parses the JSON grammar (null, booleans, integer numbers, strings,
arrays, objects, whitespace) and classifies failures the way serde_json
does: running out of input mid-value is the EOF class, everything else
(unexpected byte, control character in a string, trailing characters) is
the other class. -/

/-- A JSON value. -/
inductive JsonVal : Type where
  | null
  | bool (b : Bool)
  | num (n : Int)
  | str (s : List Nat)
  | arr (elems : List JsonVal)
  | obj (fields : List (List Nat × JsonVal))

/-- Failure class of the JSON codec: truncated input versus any other
syntax failure. -/
inductive PErr : Type where
  | eof
  | other
deriving DecidableEq

/-- JSON whitespace bytes: space, tab, newline, carriage return. -/
def isWs (b : Nat) : Bool := b == 32 || b == 9 || b == 10 || b == 13

/-- ASCII decimal digit test. -/
def isDigit (b : Nat) : Bool := 48 ≤ b && b ≤ 57

/-- Drop leading JSON whitespace. -/
def skipWs : List Nat → List Nat
  | [] => []
  | b :: rest => if isWs b then skipWs rest else b :: rest

/-- Match the tail of a keyword literal (null, true, false): running out of
input inside the literal is a truncation failure, a wrong byte is not. -/
def parseLit (lit : List Nat) (v : JsonVal) (input : List Nat) :
    Except PErr (JsonVal × List Nat) :=
  if lit.isPrefixOf input then .ok (v, input.drop lit.length)
  else if input.isPrefixOf lit then .error .eof
  else .error .other

/-- Longest digit run at the front of the input. -/
def takeDigits : List Nat → List Nat × List Nat
  | [] => ([], [])
  | b :: rest =>
    if isDigit b then
      let r := takeDigits rest
      (b :: r.1, r.2)
    else ([], b :: rest)

/-- Numeric value of a digit run. -/
def digitsVal (ds : List Nat) : Nat := ds.foldl (fun a d => a * 10 + (d - 48)) 0

/-- Parse an integer number starting at a minus sign or digit.  A lone
minus sign at the end of input is a truncation failure; a fraction or
exponent marker is out of this model and classified as other. -/
def parseNumber (input : List Nat) : Except PErr (JsonVal × List Nat) :=
  let signed := input.headD 0 == 45
  let rest0 := if signed then input.drop 1 else input
  let dr := takeDigits rest0
  if dr.1.isEmpty then
    if rest0.isEmpty then .error .eof else .error .other
  else
    match dr.2 with
    | b :: _ =>
      if b == 46 || b == 101 || b == 69 then .error .other
      else .ok (.num (if signed then -(digitsVal dr.1 : Int) else (digitsVal dr.1 : Int)), dr.2)
    | [] => .ok (.num (if signed then -(digitsVal dr.1 : Int) else (digitsVal dr.1 : Int)), [])

/-- Parse the rest of a string literal after the opening quote, returning
its content bytes.  End of input before the closing quote is a truncation
failure; an unescaped control byte is another-class failure, as in
serde_json. -/
def parseStringRest : List Nat → Except PErr (List Nat × List Nat)
  | [] => .error .eof
  | 34 :: rest => .ok ([], rest)
  | 92 :: rest =>
    match rest with
    | [] => .error .eof
    | e :: rest2 =>
      let c : Option Nat :=
        if e == 34 then some 34
        else if e == 92 then some 92
        else if e == 47 then some 47
        else if e == 110 then some 10
        else if e == 116 then some 9
        else if e == 114 then some 13
        else none
      match c with
      | some ch =>
        match parseStringRest rest2 with
        | .ok (s, r) => .ok (ch :: s, r)
        | .error err => .error err
      | none => .error .other
  | b :: rest =>
    if b < 32 then .error .other
    else
      match parseStringRest rest with
      | .ok (s, r) => .ok (b :: s, r)
      | .error err => .error err

/-- Parse the element list of a non-empty JSON array, positioned at the
first element; `pv` parses one value. -/
def parseArrElems (pv : List Nat → Except PErr (JsonVal × List Nat)) :
    Nat → List Nat → Except PErr (List JsonVal × List Nat)
  | 0, _ => .error .other
  | fuel + 1, input =>
    match pv input with
    | .error err => .error err
    | .ok (v, r) =>
      match skipWs r with
      | [] => .error .eof
      | 93 :: r2 => .ok ([v], r2)
      | 44 :: r2 =>
        match parseArrElems pv fuel r2 with
        | .ok (vs, r3) => .ok (v :: vs, r3)
        | .error err => .error err
      | _ => .error .other

/-- Parse the field list of a non-empty JSON object, positioned at the
first key; `pv` parses one value. -/
def parseObjFields (pv : List Nat → Except PErr (JsonVal × List Nat)) :
    Nat → List Nat → Except PErr (List (List Nat × JsonVal) × List Nat)
  | 0, _ => .error .other
  | fuel + 1, input =>
    match skipWs input with
    | [] => .error .eof
    | 34 :: rest =>
      match parseStringRest rest with
      | .error err => .error err
      | .ok (k, r) =>
        match skipWs r with
        | [] => .error .eof
        | 58 :: r2 =>
          match pv r2 with
          | .error err => .error err
          | .ok (v, r3) =>
            match skipWs r3 with
            | [] => .error .eof
            | 125 :: r4 => .ok ([(k, v)], r4)
            | 44 :: r4 =>
              match parseObjFields pv fuel r4 with
              | .ok (fs, r5) => .ok ((k, v) :: fs, r5)
              | .error err => .error err
            | _ => .error .other
        | _ => .error .other
    | _ => .error .other

/-- Parse one JSON value at the front of the input, returning it together
with the unconsumed rest.  The fuel bounds nesting depth; every nested
call consumes at least one byte, so a fuel of one more than the input
length never runs out. -/
def parseVal : Nat → List Nat → Except PErr (JsonVal × List Nat)
  | 0, _ => .error .other
  | fuel + 1, input =>
    match skipWs input with
    | [] => .error .eof
    | b :: rest =>
      if b == 110 then parseLit [117, 108, 108] .null rest
      else if b == 116 then parseLit [114, 117, 101] (.bool true) rest
      else if b == 102 then parseLit [97, 108, 115, 101] (.bool false) rest
      else if b == 34 then
        match parseStringRest rest with
        | .ok (s, r) => .ok (.str s, r)
        | .error err => .error err
      else if b == 45 || isDigit b then parseNumber (b :: rest)
      else if b == 91 then
        match skipWs rest with
        | 93 :: r2 => .ok (.arr [], r2)
        | r1 =>
          match parseArrElems (parseVal fuel) fuel r1 with
          | .ok (vs, r2) => .ok (.arr vs, r2)
          | .error err => .error err
      else if b == 123 then
        match skipWs rest with
        | 125 :: r2 => .ok (.obj [], r2)
        | r1 =>
          match parseObjFields (parseVal fuel) fuel r1 with
          | .ok (fs, r2) => .ok (.obj fs, r2)
          | .error err => .error err
      else .error .other

/-- The concrete JSON codec: parse a complete document, requiring only
whitespace after the value, with serde_json's truncation classification. -/
def miniParse (input : List Nat) : ParseOutcome JsonVal :=
  match parseVal (input.length + 1) input with
  | .error .eof => .errEof
  | .error .other => .errOther
  | .ok (v, rest) => if (skipWs rest).isEmpty then .ok v else .errOther

/-! ### The chunk-feeding protocol

The order-preservation claim fixes a driving protocol: each chunk is
appended to the buffer and `decode` is then called repeatedly before the
next chunk is appended.  `drainClaim`/`feedAllClaim` encode the protocol
literally as the claim words it (stop at the first `NeedMoreData`);
`drain`/`feedAll` encode the amended protocol (stop at a `NeedMoreData`
that left the buffer unchanged, so that lines already buffered behind a
skipped non-data line are still drained).  Both loops carry fuel; every
continuing step strictly shrinks the buffer, so a fuel of one more than
the buffer length never runs out. -/

/-- Call `decode` repeatedly, collecting produced values, stopping at the
first `NeedMoreData` or `Error`, as the order-preservation claim words the
protocol. -/
def drainClaim {V : Type} (parse : List Nat → ParseOutcome V) :
    Nat → List Nat → List V × List Nat
  | 0, buf => ([], buf)
  | fuel + 1, buf =>
    match decode parse buf with
    | (.produced v, buf2) =>
      let r := drainClaim parse fuel buf2
      (v :: r.1, r.2)
    | (.needMoreData, buf2) => ([], buf2)
    | (.error, buf2) => ([], buf2)

/-- Call `decode` repeatedly, collecting produced values, stopping at an
`Error` or at a `NeedMoreData` call that consumed nothing. -/
def drain {V : Type} (parse : List Nat → ParseOutcome V) :
    Nat → List Nat → List V × List Nat
  | 0, buf => ([], buf)
  | fuel + 1, buf =>
    match decode parse buf with
    | (.produced v, buf2) =>
      let r := drain parse fuel buf2
      (v :: r.1, r.2)
    | (.needMoreData, buf2) =>
      if buf2 = buf then ([], buf)
      else drain parse fuel buf2
    | (.error, buf2) => ([], buf2)

/-- Feed the chunks in order with the claim's literal protocol, returning
all produced values and the final buffer. -/
def feedAllClaim {V : Type} (parse : List Nat → ParseOutcome V) :
    List Nat → List (List Nat) → List V × List Nat
  | buf, [] => ([], buf)
  | buf, c :: cs =>
    let b := buf ++ c
    let r := drainClaim parse (b.length + 1) b
    let r2 := feedAllClaim parse r.2 cs
    (r.1 ++ r2.1, r2.2)

/-- Feed the chunks in order with the amended protocol, returning all
produced values and the final buffer. -/
def feedAll {V : Type} (parse : List Nat → ParseOutcome V) :
    List Nat → List (List Nat) → List V × List Nat
  | buf, [] => ([], buf)
  | buf, c :: cs =>
    let b := buf ++ c
    let r := drain parse (b.length + 1) b
    let r2 := feedAll parse r.2 cs
    (r.1 ++ r2.1, r2.2)

/-- A well-formed frame: the `b"data: "` marker, a payload, and the
terminating newline. -/
def sseFrame (p : List Nat) : List Nat := dataMark ++ p ++ [nlByte]

/-- The byte stream of a sequence of frames. -/
def sseStream (ps : List (List Nat)) : List Nat := (ps.map sseFrame).flatten

/-- A payload yielding a well-formed frame for the codec `parse`: it
contains no newline byte, and every strict prefix of it fails to parse
with a truncation-class error (so the codec cannot mistake a partially
delivered payload for a complete one). -/
def WFPayload {V : Type} (parse : List Nat → ParseOutcome V) (p : List Nat) : Prop :=
  (∀ b ∈ p, b ≠ nlByte) ∧ ∀ i < p.length, parse (p.take i) = .errEof

/-- Tail of a stream prefix on which a drain loop is quiescent: a strict
front part of the marker, or the marker plus a strict front part of the
next payload. -/
def QTail (rem : List (List Nat)) (t : List Nat) : Prop :=
  (t <+: dataMark ∧ t ≠ dataMark)
  ∨ ∃ p rem2, rem = p :: rem2 ∧ ∃ i, i < p.length ∧ t = dataMark ++ p.take i

/-- Tail of a stream prefix that is a complete data line still missing its
newline: the marker plus exactly the next payload. -/
def FullTail (rem : List (List Nat)) (t : List Nat) : Prop :=
  ∃ p rem2, rem = p :: rem2 ∧ t = dataMark ++ p

/-- Invariant tying the fed bytes, the produced values and the buffer to a
split of the payload sequence.  Either the decoder sits at a quiescent
tail of the stream after the frames of `done` (all of whose values are
out), or the payload of the last frame of `done` was produced early, with
the frame's newline not yet fed and the buffer empty. -/
def GoodState {V : Type} (_parse : List Nat → ParseOutcome V) (f : List Nat → V)
    (ps : List (List Nat)) (fed : List Nat) (out : List V) (buf : List Nat) : Prop :=
  ∃ done rem, ps = done ++ rem ∧ out = done.map f ∧
    ((fed = sseStream done ++ buf ∧ QTail rem buf) ∨
     (done ≠ [] ∧ fed ++ [nlByte] = sseStream done ∧ buf = []))

/-! ### Newline search and data marker facts -/

theorem nlPos_eq_none {l : List Nat} (h : ∀ b ∈ l, b ≠ nlByte) : nlPos l = none := by
  induction l with
  | nil => rfl
  | cons b rest ih =>
    have hb : ¬((b == nlByte) = true) := by
      simpa using h b (List.mem_cons_self ..)
    simp only [nlPos, if_neg hb]
    rw [ih fun x hx => h x (List.mem_cons_of_mem _ hx)]
    rfl

theorem nlPos_append {l r : List Nat} (h : ∀ b ∈ l, b ≠ nlByte) :
    nlPos (l ++ nlByte :: r) = some l.length := by
  induction l with
  | nil => simp [nlPos]
  | cons b rest ih =>
    have hb : ¬((b == nlByte) = true) := by
      simpa using h b (List.mem_cons_self ..)
    simp only [List.cons_append, nlPos, if_neg hb, List.append_eq]
    rw [ih fun x hx => h x (List.mem_cons_of_mem _ hx)]
    simp

theorem nlPos_lt_length {l : List Nat} {pos : Nat} (h : nlPos l = some pos) :
    pos < l.length := by
  induction l generalizing pos with
  | nil => simp [nlPos] at h
  | cons b rest ih =>
    simp only [nlPos] at h
    by_cases hb : (b == nlByte) = true
    · rw [if_pos hb] at h
      cases h
      simp
    · rw [if_neg hb] at h
      cases hr : nlPos rest with
      | none => rw [hr] at h; exact Option.noConfusion h
      | some q =>
        rw [hr] at h
        have h2 : q + 1 = pos := by simpa using h
        have := ih hr
        simp only [List.length_cons]
        omega

theorem dataMark_noNl : ∀ b ∈ dataMark, b ≠ nlByte := by decide

/-- Bridge between the boolean byte-level test of the source and the
propositional front-part relation. -/
theorem isPre_iff {l1 l2 : List Nat} : l1.isPrefixOf l2 = true ↔ l1 <+: l2 :=
  List.isPrefixOf_iff_prefix

/-- The empty list is a front part of every list. -/
theorem nilPre {α : Type} {l : List α} : [] <+: l :=
  List.nil_prefix

/-! ### Branch characterization of decode

Each lemma states what one branch of the source does to the buffer, under
the branch conditions that reach it. -/

/-- A newline-terminated first line starting with `b"data: "`: the decode
outcome and post-call buffer as a function of the parse result of
the payload.  On success the frame is consumed; on a truncation-class
failure the newline byte is deleted and the line is joined to the
remainder; on any other failure the frame is kept and the remainder is
dropped. -/
theorem decode_data_line {V : Type} (parse : List Nat → ParseOutcome V)
    (line rest : List Nat) (hnl : ∀ b ∈ line, b ≠ nlByte)
    (hpre : dataMark <+: line) :
    decode parse (line ++ nlByte :: rest) =
      match parse (line.drop 6) with
      | .ok v => (.produced v, rest)
      | .errEof => (.needMoreData, line ++ rest)
      | .errOther => (.error, line ++ [nlByte]) := by
  have hsome : nlPos (line ++ nlByte :: rest) = some line.length := nlPos_append hnl
  have hempty : (line ++ nlByte :: rest).isEmpty = false := by simp
  have hrem : (line ++ nlByte :: rest).drop (line.length + 1) = rest := by
    rw [List.append_cons]
    exact List.drop_left' (by simp)
  have hsplit : (line ++ nlByte :: rest).take (line.length + 1) = line ++ [nlByte] := by
    rw [List.append_cons]
    exact List.take_left' (by simp)
  have hlen : (line ++ [nlByte]).length - 1 = line.length := by simp
  have hline : (line ++ [nlByte]).take ((line ++ [nlByte]).length - 1) = line := by
    rw [hlen]
    exact List.take_left' rfl
  have hp : dataMark.isPrefixOf line = true := isPre_iff.mpr hpre
  have hadv : ((line ++ [nlByte]) ++ rest).drop (line.length + 1) = rest :=
    List.drop_left' (by simp)
  simp only [decode, hsome, hempty, Bool.false_eq_true, if_false, hrem, hsplit, hline,
    hp, if_true, hadv]

/-- A newline-terminated first line not starting with `b"data: "` is
skipped: the line and its newline are consumed. -/
theorem decode_skip_line {V : Type} (parse : List Nat → ParseOutcome V)
    (line rest : List Nat) (hnl : ∀ b ∈ line, b ≠ nlByte)
    (hnp : ¬dataMark <+: line) :
    decode parse (line ++ nlByte :: rest) = (.needMoreData, rest) := by
  have hsome : nlPos (line ++ nlByte :: rest) = some line.length := nlPos_append hnl
  have hempty : (line ++ nlByte :: rest).isEmpty = false := by simp
  have hrem : (line ++ nlByte :: rest).drop (line.length + 1) = rest := by
    rw [List.append_cons]
    exact List.drop_left' (by simp)
  have hsplit : (line ++ nlByte :: rest).take (line.length + 1) = line ++ [nlByte] := by
    rw [List.append_cons]
    exact List.take_left' (by simp)
  have hlen : (line ++ [nlByte]).length - 1 = line.length := by simp
  have hline : (line ++ [nlByte]).take ((line ++ [nlByte]).length - 1) = line := by
    rw [hlen]
    exact List.take_left' rfl
  have hp : dataMark.isPrefixOf line = false := by
    rw [Bool.eq_false_iff]
    intro hc
    exact hnp (isPre_iff.mp hc)
  have hadv : ((line ++ [nlByte]) ++ rest).drop (line.length + 1) = rest :=
    List.drop_left' (by simp)
  simp only [decode, hsome, hempty, Bool.false_eq_true, if_false, hrem, hsplit, hline,
    hp, hadv]

/-- A newline-free buffer starting with `b"data: "`: the decode outcome as
a function of the parse result of everything after the marker.  Success
clears the buffer; either failure leaves it untouched. -/
theorem decode_no_nl {V : Type} (parse : List Nat → ParseOutcome V)
    (src : List Nat) (hnl : ∀ b ∈ src, b ≠ nlByte) (hpre : dataMark <+: src) :
    decode parse src =
      match parse (src.drop 6) with
      | .ok v => (.produced v, [])
      | .errEof => (.needMoreData, src)
      | .errOther => (.error, src) := by
  have hnone : nlPos src = none := nlPos_eq_none hnl
  have hempty : src.isEmpty = false := by
    simp only [List.isEmpty_eq_false]
    intro hc
    subst hc
    have := hpre.length_le
    simp [dataMark] at this
  have hp : dataMark.isPrefixOf src = true := isPre_iff.mpr hpre
  simp only [decode, hnone, hempty, Bool.false_eq_true, if_false, hp, if_true]

/-- A newline-free buffer not starting with `b"data: "` (including the
empty buffer) is left untouched with `NeedMoreData`. -/
theorem decode_no_nl_skip {V : Type} (parse : List Nat → ParseOutcome V)
    (src : List Nat) (hnl : ∀ b ∈ src, b ≠ nlByte) (hnp : ¬dataMark <+: src) :
    decode parse src = (.needMoreData, src) := by
  by_cases hs : src = []
  · subst hs; rfl
  have hnone : nlPos src = none := nlPos_eq_none hnl
  have hempty : src.isEmpty = false := by simpa using hs
  have hp : dataMark.isPrefixOf src = false := by
    rw [Bool.eq_false_iff]
    intro hc
    exact hnp (isPre_iff.mp hc)
  simp only [decode, hnone, hempty, Bool.false_eq_true, if_false, hp]

/-- Every bounds check in `decodeChecked` succeeds: on any buffer the
checked evaluation agrees with `decode` and never reaches a panic spot. -/
theorem decodeChecked_eq {V : Type} (parse : List Nat → ParseOutcome V)
    (src : List Nat) : decodeChecked parse src = some (decode parse src) := by
  cases hs : src.isEmpty with
  | true => simp only [decodeChecked, decode, hs, if_true]
  | false =>
    cases hnl : nlPos src with
    | none =>
      by_cases hp : dataMark.isPrefixOf src = true
      · have h6 : 6 ≤ src.length := by
          have := (isPre_iff.mp hp).length_le
          simpa [dataMark] using this
        simp only [decodeChecked, decode, hs, hnl, hp, Bool.false_eq_true, if_false,
          if_true, if_pos h6]
        cases parse (src.drop 6) <;> rfl
      · have hp2 : dataMark.isPrefixOf src = false := by
          rw [Bool.eq_false_iff]; exact hp
        simp only [decodeChecked, decode, hs, hnl, hp2, Bool.false_eq_true, if_false]
    | some pos =>
      have hlt : pos < src.length := nlPos_lt_length hnl
      have h1 : pos + 1 ≤ src.length := hlt
      have hsl : (src.take (pos + 1)).length = pos + 1 := by
        simp [List.length_take]
        omega
      have h2 : 1 ≤ (src.take (pos + 1)).length := by omega
      have h7 : pos + 1 ≤ (src.take (pos + 1) ++ src.drop (pos + 1)).length := by
        rw [List.take_append_drop]
        exact h1
      by_cases hp : dataMark.isPrefixOf ((src.take (pos + 1)).take ((src.take (pos + 1)).length - 1)) = true
      · have h6 : 6 ≤ ((src.take (pos + 1)).take ((src.take (pos + 1)).length - 1)).length := by
          have := (isPre_iff.mp hp).length_le
          simpa [dataMark] using this
        simp only [decodeChecked, decode, hs, hnl, hp, Bool.false_eq_true, if_false,
          if_true, if_pos h1, if_pos h2, if_pos h6, if_pos h7]
        cases parse (((src.take (pos + 1)).take ((src.take (pos + 1)).length - 1)).drop 6) <;> rfl
      · have hp2 : dataMark.isPrefixOf ((src.take (pos + 1)).take ((src.take (pos + 1)).length - 1)) = false := by
          rw [Bool.eq_false_iff]; exact hp
        simp only [decodeChecked, decode, hs, hnl, hp2, Bool.false_eq_true, if_false,
          if_pos h1, if_pos h2, if_pos h7]

/-- The buffer after any `decode` call is a subsequence of the buffer
before it: consumption deletes bytes but never reorders them. -/
theorem decode_snd_sublist {V : Type} (parse : List Nat → ParseOutcome V)
    (src : List Nat) : ((decode parse src).2).Sublist src := by
  cases hs : src.isEmpty with
  | true => simp only [decode, hs, if_true]; exact List.Sublist.refl _
  | false =>
    cases hnl : nlPos src with
    | none =>
      by_cases hp : dataMark.isPrefixOf src = true
      · simp only [decode, hs, hnl, hp, Bool.false_eq_true, if_false, if_true]
        cases parse (src.drop 6) with
        | ok v => exact List.nil_sublist _
        | errEof => exact List.Sublist.refl _
        | errOther => exact List.Sublist.refl _
      · have hp2 : dataMark.isPrefixOf src = false := by rw [Bool.eq_false_iff]; exact hp
        simp only [decode, hs, hnl, hp2, Bool.false_eq_true, if_false]
        exact List.Sublist.refl _
    | some pos =>
      have hlt : pos < src.length := nlPos_lt_length hnl
      have hdropSub : (src.take (pos + 1) ++ src.drop (pos + 1)).drop (pos + 1) |>.Sublist src := by
        rw [List.take_append_drop]
        exact List.drop_sublist _ _
      have hsl : (src.take (pos + 1)).length = pos + 1 := by
        simp [List.length_take]
        omega
      have hlineSub : ((src.take (pos + 1)).take ((src.take (pos + 1)).length - 1) ++ src.drop (pos + 1)).Sublist src := by
        rw [hsl]
        have hline : (src.take (pos + 1)).take (pos + 1 - 1) = src.take pos := by
          rw [List.take_take]
          congr 1
          omega
        rw [hline]
        have hstep : (src.drop (pos + 1)).Sublist (src.drop pos) := by
          have : src.drop (pos + 1) = (src.drop pos).drop 1 := by
            rw [List.drop_drop]
          rw [this]
          exact List.drop_sublist _ _
        calc (src.take pos ++ src.drop (pos + 1)).Sublist (src.take pos ++ src.drop pos) :=
              List.Sublist.append_left hstep _
          _ = src := List.take_append_drop _ _
      by_cases hp : dataMark.isPrefixOf ((src.take (pos + 1)).take ((src.take (pos + 1)).length - 1)) = true
      · simp only [decode, hs, hnl, hp, Bool.false_eq_true, if_false, if_true]
        cases parse (((src.take (pos + 1)).take ((src.take (pos + 1)).length - 1)).drop 6) with
        | ok v => exact hdropSub
        | errEof => exact hlineSub
        | errOther => exact List.take_sublist _ _
      · have hp2 : dataMark.isPrefixOf ((src.take (pos + 1)).take ((src.take (pos + 1)).length - 1)) = false := by
          rw [Bool.eq_false_iff]; exact hp
        simp only [decode, hs, hnl, hp2, Bool.false_eq_true, if_false]
        exact hdropSub

/-! ### Frame streams and their prefixes

The order-preservation proof tracks the decoder through an arbitrary
chunking by classifying every prefix of a frame stream: it is a whole
number of frames followed by a tail that is either a strict front part of
the `b"data: "` marker, the marker plus a strict front part of the next
payload, or the marker plus exactly the next payload (the frame complete
except for its newline). -/

theorem sseStream_nil : sseStream [] = [] := rfl

theorem sseStream_cons (p : List Nat) (ps : List (List Nat)) :
    sseStream (p :: ps) = sseFrame p ++ sseStream ps := by
  simp [sseStream]

theorem sseStream_append (a b : List (List Nat)) :
    sseStream (a ++ b) = sseStream a ++ sseStream b := by
  simp [sseStream]

theorem sseFrame_length (p : List Nat) : (sseFrame p).length = p.length + 7 := by
  simp [sseFrame, dataMark, nlByte]

/-- Every prefix of a frame stream splits into whole frames plus a
quiescent or full tail. -/
theorem stream_take_decomp :
    ∀ (rem : List (List Nat)) (u : List Nat), u <+: sseStream rem →
      ∃ mid rem2 t, rem = mid ++ rem2 ∧ u = sseStream mid ++ t ∧
        (QTail rem2 t ∨ FullTail rem2 t) := by
  intro rem
  induction rem with
  | nil =>
    intro u hu
    rw [sseStream_nil, List.prefix_nil] at hu
    subst hu
    exact ⟨[], [], [], rfl, rfl, Or.inl (Or.inl ⟨nilPre, by simp [dataMark]⟩)⟩
  | cons p rem2 ih =>
    intro u hu
    rw [sseStream_cons] at hu
    have hw : sseFrame p ++ sseStream rem2 =
        dataMark ++ (p ++ nlByte :: sseStream rem2) := by
      simp [sseFrame]
    by_cases h5 : u.length ≤ 5
    · have hdm : dataMark <+: sseFrame p ++ sseStream rem2 := by
        rw [hw]; exact List.prefix_append _ _
      have hupre : u <+: dataMark :=
        List.prefix_of_prefix_length_le hu hdm (by simp [dataMark]; omega)
      refine ⟨[], p :: rem2, u, rfl, by simp [sseStream_nil], Or.inl (Or.inl ⟨hupre, ?_⟩)⟩
      intro hc
      subst hc
      simp [dataMark] at h5
    · by_cases h6 : u.length ≤ 6 + p.length
      · have hlen6 : 6 ≤ u.length := by omega
        have hueq : u = (sseFrame p ++ sseStream rem2).take u.length :=
          List.prefix_iff_eq_take.mp hu
        have htake : (sseFrame p ++ sseStream rem2).take u.length =
            dataMark ++ (p.take (u.length - 6)) := by
          rw [hw, List.take_append_eq_append_take]
          have h1 : dataMark.take u.length = dataMark :=
            List.take_of_length_le (by simp [dataMark]; omega)
          have h2 : (p ++ nlByte :: sseStream rem2).take (u.length - dataMark.length) =
              p.take (u.length - 6) := by
            have hdm6 : dataMark.length = 6 := rfl
            rw [hdm6, List.take_append_eq_append_take]
            have h3 : u.length - 6 - p.length = 0 := by omega
            rw [h3]
            simp
          rw [h1, h2]
        rw [htake] at hueq
        by_cases hfull : u.length - 6 = p.length
        · refine ⟨[], p :: rem2, u, rfl, by simp [sseStream_nil],
            Or.inr ⟨p, rem2, rfl, ?_⟩⟩
          rw [hueq, hfull, List.take_length]
        · exact ⟨[], p :: rem2, u, rfl, by simp [sseStream_nil],
            Or.inl (Or.inr ⟨p, rem2, rfl, u.length - 6, by omega, hueq⟩)⟩
      · have hflen : (sseFrame p).length ≤ u.length := by
          rw [sseFrame_length]; omega
        have hfp : sseFrame p <+: u :=
          List.prefix_of_prefix_length_le (List.prefix_append _ _) hu hflen
        obtain ⟨u2, hu2⟩ := hfp
        have hu2pre : u2 <+: sseStream rem2 := by
          rw [← hu2] at hu
          exact (List.prefix_append_right_inj (sseFrame p)).mp hu
        obtain ⟨mid2, rem3, t, hrem, hdec, htail⟩ := ih u2 hu2pre
        refine ⟨p :: mid2, rem3, t, by rw [hrem, List.cons_append], ?_, htail⟩
        rw [← hu2, hdec, sseStream_cons, List.append_assoc]

/-! ### Draining a buffer made of whole frames plus a tail -/

/-- On a quiescent tail, one decode call consumes nothing. -/
theorem decode_quiet {V : Type} (parse : List Nat → ParseOutcome V)
    {rem : List (List Nat)} {t : List Nat} (hq : QTail rem t)
    (hwf : ∀ p ∈ rem, WFPayload parse p) :
    decode parse t = (.needMoreData, t) := by
  rcases hq with ⟨hpre, hne⟩ | ⟨p, rem2, hrem, i, hi, ht⟩
  · have hle := hpre.length_le
    have hlt : t.length < 6 := by
      rcases Nat.lt_or_ge t.length 6 with h | h
      · exact h
      · have h6 : t.length = dataMark.length := by
          simp only [dataMark] at hle ⊢
          simp at hle ⊢
          omega
        exact absurd (hpre.eq_of_length h6) hne
    apply decode_no_nl_skip
    · intro b hb
      exact dataMark_noNl b (hpre.subset hb)
    · intro hc
      have := hc.length_le
      simp [dataMark] at this
      omega
  · subst ht
    have hwfp : WFPayload parse p := hwf p (by rw [hrem]; exact List.mem_cons_self ..)
    have hnl : ∀ b ∈ dataMark ++ p.take i, b ≠ nlByte := by
      intro b hb
      rcases List.mem_append.mp hb with h | h
      · exact dataMark_noNl b h
      · exact hwfp.1 b (List.take_subset _ _ h)
    rw [decode_no_nl parse _ hnl (List.prefix_append _ _)]
    have hdrop : (dataMark ++ p.take i).drop 6 = p.take i := List.drop_left' rfl
    rw [hdrop, hwfp.2 i hi]

/-- Draining an empty buffer yields nothing. -/
theorem drain_nil {V : Type} (parse : List Nat → ParseOutcome V) {fuel : Nat}
    (h : 1 ≤ fuel) : drain parse fuel [] = ([], []) := by
  cases fuel with
  | zero => omega
  | succ fl =>
    simp only [drain]
    rw [show decode parse ([] : List Nat) = (.needMoreData, []) from rfl]
    simp

/-- Draining a quiescent tail yields nothing and keeps the tail. -/
theorem drain_quiet {V : Type} (parse : List Nat → ParseOutcome V)
    {rem : List (List Nat)} {t : List Nat} {fuel : Nat} (hq : QTail rem t)
    (hwf : ∀ p ∈ rem, WFPayload parse p) (hfuel : 1 ≤ fuel) :
    drain parse fuel t = ([], t) := by
  cases fuel with
  | zero => omega
  | succ fl =>
    simp only [drain]
    rw [decode_quiet parse hq hwf]
    simp

/-- Draining whole frames followed by a quiescent tail produces exactly
the frame payloads' values in order and stops at the tail. -/
theorem drain_quiet_run {V : Type} (parse : List Nat → ParseOutcome V)
    (f : List Nat → V) :
    ∀ (mid : List (List Nat)) {rem2 : List (List Nat)} {t : List Nat} {fuel : Nat},
      (∀ p ∈ mid, WFPayload parse p ∧ parse p = .ok (f p)) →
      (∀ p ∈ rem2, WFPayload parse p) → QTail rem2 t →
      (sseStream mid ++ t).length + 1 ≤ fuel →
      drain parse fuel (sseStream mid ++ t) = (mid.map f, t) := by
  intro mid
  induction mid with
  | nil =>
    intro rem2 t fuel hmid hwf hq hfuel
    simp only [sseStream_nil, List.nil_append, List.map_nil] at *
    exact drain_quiet parse hq hwf (by omega)
  | cons q mid2 ih =>
    intro rem2 t fuel hmid hwf hq hfuel
    have hb : sseStream (q :: mid2) ++ t =
        (dataMark ++ q) ++ nlByte :: (sseStream mid2 ++ t) := by
      rw [sseStream_cons]
      simp [sseFrame, List.append_assoc]
    have hq1 := hmid q (List.mem_cons_self ..)
    have hnl : ∀ b ∈ dataMark ++ q, b ≠ nlByte := by
      intro b hb2
      rcases List.mem_append.mp hb2 with h | h
      · exact dataMark_noNl b h
      · exact hq1.1.1 b h
    have hflen : (sseStream (q :: mid2) ++ t).length =
        q.length + 7 + (sseStream mid2 ++ t).length := by
      rw [sseStream_cons]
      simp [sseFrame_length, List.length_append]
    cases fuel with
    | zero => omega
    | succ fl =>
      rw [hb]
      simp only [drain]
      rw [decode_data_line parse (dataMark ++ q) _ hnl (List.prefix_append _ _)]
      rw [show (dataMark ++ q).drop 6 = q from List.drop_left' rfl, hq1.2]
      have hrec : drain parse fl (sseStream mid2 ++ t) = (mid2.map f, t) := by
        apply ih (fun p hp => hmid p (List.mem_cons_of_mem _ hp)) hwf hq
        rw [hflen] at hfuel
        omega
      simp [hrec]

/-- Draining whole frames followed by a complete data line that is missing
its newline produces the payload values of the frames and then of that
line, and empties the buffer. -/
theorem drain_full_run {V : Type} (parse : List Nat → ParseOutcome V)
    (f : List Nat → V) :
    ∀ (mid : List (List Nat)) {p : List Nat} {fuel : Nat},
      (∀ q ∈ mid, WFPayload parse q ∧ parse q = .ok (f q)) →
      WFPayload parse p → parse p = .ok (f p) →
      (sseStream mid ++ (dataMark ++ p)).length + 1 ≤ fuel →
      drain parse fuel (sseStream mid ++ (dataMark ++ p)) =
        (mid.map f ++ [f p], []) := by
  intro mid
  induction mid with
  | nil =>
    intro p fuel hmid hwfp hokp hfuel
    simp only [sseStream_nil, List.nil_append, List.map_nil] at *
    have hnl : ∀ b ∈ dataMark ++ p, b ≠ nlByte := by
      intro b hb
      rcases List.mem_append.mp hb with h | h
      · exact dataMark_noNl b h
      · exact hwfp.1 b h
    cases fuel with
    | zero => omega
    | succ fl =>
      simp only [drain]
      rw [decode_no_nl parse _ hnl (List.prefix_append _ _)]
      rw [show (dataMark ++ p).drop 6 = p from List.drop_left' rfl, hokp]
      have hfl : 1 ≤ fl := by
        simp [dataMark, List.length_append] at hfuel
        omega
      simp [drain_nil parse hfl]
  | cons q mid2 ih =>
    intro p fuel hmid hwfp hokp hfuel
    have hb : sseStream (q :: mid2) ++ (dataMark ++ p) =
        (dataMark ++ q) ++ nlByte :: (sseStream mid2 ++ (dataMark ++ p)) := by
      rw [sseStream_cons]
      simp [sseFrame, List.append_assoc]
    have hq1 := hmid q (List.mem_cons_self ..)
    have hnl : ∀ b ∈ dataMark ++ q, b ≠ nlByte := by
      intro b hb2
      rcases List.mem_append.mp hb2 with h | h
      · exact dataMark_noNl b h
      · exact hq1.1.1 b h
    have hflen : (sseStream (q :: mid2) ++ (dataMark ++ p)).length =
        q.length + 7 + (sseStream mid2 ++ (dataMark ++ p)).length := by
      rw [sseStream_cons]
      simp [sseFrame_length, List.length_append]
    cases fuel with
    | zero => omega
    | succ fl =>
      rw [hb]
      simp only [drain]
      rw [decode_data_line parse (dataMark ++ q) _ hnl (List.prefix_append _ _)]
      rw [show (dataMark ++ q).drop 6 = q from List.drop_left' rfl, hq1.2]
      have hrec : drain parse fl (sseStream mid2 ++ (dataMark ++ p)) =
          (mid2.map f ++ [f p], []) := by
        apply ih (fun r hr => hmid r (List.mem_cons_of_mem _ hr)) hwfp hokp
        rw [hflen] at hfuel
        omega
      simp [hrec]

/-- Draining any prefix of the stream of the remaining frames: the drain
consumes the whole frames at its front and stops either at a quiescent
tail or, after an early produce, with an empty buffer. -/
theorem drain_on_stream {V : Type} (parse : List Nat → ParseOutcome V)
    (f : List Nat → V) {rem : List (List Nat)} {u : List Nat}
    (hremwf : ∀ p ∈ rem, WFPayload parse p ∧ parse p = .ok (f p))
    (hu : u <+: sseStream rem) :
    ∃ mid rem2 t, rem = mid ++ rem2 ∧ u = sseStream mid ++ t ∧
      ((QTail rem2 t ∧ drain parse (u.length + 1) u = (mid.map f, t)) ∨
       ∃ p rem3, rem2 = p :: rem3 ∧ t = dataMark ++ p ∧
         drain parse (u.length + 1) u = (mid.map f ++ [f p], [])) := by
  obtain ⟨mid, rem2, t, hrem, hdec, htail⟩ := stream_take_decomp rem u hu
  have hmid : ∀ p ∈ mid, WFPayload parse p ∧ parse p = .ok (f p) := by
    intro p hp
    exact hremwf p (by rw [hrem]; exact List.mem_append_left _ hp)
  have hrem2wf : ∀ p ∈ rem2, WFPayload parse p := by
    intro p hp
    exact (hremwf p (by rw [hrem]; exact List.mem_append_right _ hp)).1
  rcases htail with hq | ⟨p, rem3, hrem2, ht⟩
  · refine ⟨mid, rem2, t, hrem, hdec, Or.inl ⟨hq, ?_⟩⟩
    rw [hdec]
    exact drain_quiet_run parse f mid hmid hrem2wf hq (by omega)
  · refine ⟨mid, rem2, t, hrem, hdec, Or.inr ⟨p, rem3, hrem2, ht, ?_⟩⟩
    have hpwf : WFPayload parse p ∧ parse p = .ok (f p) :=
      hremwf p (by rw [hrem, hrem2]; exact List.mem_append_right _ (List.mem_cons_self ..))
    rw [hdec, ht]
    exact drain_full_run parse f mid hmid hpwf.1 hpwf.2 (by rw [← ht, ← hdec])

/-- Feeding one chunk from a good state and draining yields a good state. -/
theorem goodState_feed {V : Type} (parse : List Nat → ParseOutcome V)
    (f : List Nat → V) {ps : List (List Nat)} {fed out buf c}
    (hwf : ∀ p ∈ ps, WFPayload parse p) (hok : ∀ p ∈ ps, parse p = .ok (f p))
    (hgs : GoodState parse f ps fed out buf) (hpre : fed ++ c <+: sseStream ps) :
    GoodState parse f ps (fed ++ c)
      (out ++ (drain parse ((buf ++ c).length + 1) (buf ++ c)).1)
      (drain parse ((buf ++ c).length + 1) (buf ++ c)).2 := by
  obtain ⟨done, rem, hps, hout, hcase⟩ := hgs
  have hremwf : ∀ p ∈ rem, WFPayload parse p ∧ parse p = .ok (f p) := by
    intro p hp
    have hmem : p ∈ ps := by rw [hps]; exact List.mem_append_right _ hp
    exact ⟨hwf p hmem, hok p hmem⟩
  rcases hcase with ⟨hfed, _⟩ | ⟨hdne, hfednl, hbuf⟩
  · have hbc : buf ++ c <+: sseStream rem := by
      have hs : sseStream ps = sseStream done ++ sseStream rem := by
        rw [hps, sseStream_append]
      rw [hfed, hs, List.append_assoc] at hpre
      exact (List.prefix_append_right_inj _).mp hpre
    obtain ⟨mid, rem2, t, hrem, hu, hres⟩ := drain_on_stream parse f hremwf hbc
    rcases hres with ⟨hqt, hdr⟩ | ⟨p, rem3, hrem2, ht, hdr⟩
    · refine ⟨done ++ mid, rem2, ?_, ?_, Or.inl ⟨?_, ?_⟩⟩
      · rw [hps, hrem, List.append_assoc]
      · rw [hdr, hout]
        simp
      · rw [hdr]
        calc fed ++ c = sseStream done ++ (buf ++ c) := by rw [hfed, List.append_assoc]
          _ = sseStream done ++ (sseStream mid ++ t) := by rw [hu]
          _ = sseStream (done ++ mid) ++ t := by rw [sseStream_append, List.append_assoc]
      · rw [hdr]
        exact hqt
    · refine ⟨done ++ mid ++ [p], rem3, ?_, ?_, Or.inr ⟨by simp, ?_, ?_⟩⟩
      · rw [hps, hrem, hrem2]
        simp
      · rw [hdr, hout]
        simp
      · calc (fed ++ c) ++ [nlByte] = (sseStream done ++ (buf ++ c)) ++ [nlByte] := by
              rw [hfed]; simp
          _ = sseStream done ++ (sseStream mid ++ (dataMark ++ p ++ [nlByte])) := by
              rw [hu, ht]
              simp
          _ = sseStream (done ++ mid ++ [p]) := by
              rw [sseStream_append, sseStream_append]
              simp [sseStream_cons, sseStream_nil, sseFrame]
      · rw [hdr]
  · subst hbuf
    cases c with
    | nil =>
      refine ⟨done, rem, hps, ?_, Or.inr ⟨hdne, ?_, ?_⟩⟩
      · simp only [List.nil_append, List.append_nil]
        rw [drain_nil parse (by simp), hout]
        simp
      · simp only [List.append_nil]
        rw [← hfednl]
      · simp only [List.nil_append, List.append_nil]
        rw [drain_nil parse (by simp)]
    | cons b c2 =>
      have hsps : sseStream ps = fed ++ nlByte :: sseStream rem := by
        rw [hps, sseStream_append, ← hfednl]
        simp
      rw [hsps] at hpre
      have hcpre : b :: c2 <+: nlByte :: sseStream rem :=
        (List.prefix_append_right_inj fed).mp hpre
      obtain ⟨hb, hc2⟩ := List.cons_prefix_cons.mp hcpre
      subst hb
      obtain ⟨mid, rem2, t, hrem, hu, hres⟩ := drain_on_stream parse f hremwf hc2
      have hskip : decode parse (nlByte :: c2) = (.needMoreData, c2) := by
        have := decode_skip_line parse [] c2 (by simp) ?_
        · simpa using this
        · intro hpc
          have := hpc.length_le
          simp [dataMark] at this
      have hdrain : drain parse (((nlByte :: c2) : List Nat).length + 1) (nlByte :: c2) =
          drain parse (c2.length + 1) c2 := by
        simp only [List.length_cons, drain]
        rw [hskip]
        have hne2 : c2 ≠ nlByte :: c2 := Ne.symm (List.cons_ne_self _ _)
        simp [hne2]
      rcases hres with ⟨hqt, hdr⟩ | ⟨p, rem3, hrem2, ht, hdr⟩
      · refine ⟨done ++ mid, rem2, ?_, ?_, Or.inl ⟨?_, ?_⟩⟩
        · rw [hps, hrem, List.append_assoc]
        · simp only [List.nil_append]
          rw [hdrain, hdr, hout]
          simp
        · simp only [List.nil_append]
          rw [hdrain, hdr]
          calc fed ++ nlByte :: c2 = (fed ++ [nlByte]) ++ c2 := by simp
            _ = sseStream done ++ (sseStream mid ++ t) := by rw [hfednl, hu]
            _ = sseStream (done ++ mid) ++ t := by rw [sseStream_append, List.append_assoc]
        · simp only [List.nil_append]
          rw [hdrain, hdr]
          exact hqt
      · refine ⟨done ++ mid ++ [p], rem3, ?_, ?_, Or.inr ⟨by simp, ?_, ?_⟩⟩
        · rw [hps, hrem, hrem2]
          simp
        · simp only [List.nil_append]
          rw [hdrain, hdr, hout]
          simp
        · calc (fed ++ nlByte :: c2) ++ [nlByte] = (fed ++ [nlByte]) ++ (c2 ++ [nlByte]) := by
                simp
            _ = sseStream done ++ (sseStream mid ++ (dataMark ++ p ++ [nlByte])) := by
                rw [hfednl, hu, ht]
                simp
            _ = sseStream (done ++ mid ++ [p]) := by
                rw [sseStream_append, sseStream_append]
                simp [sseStream_cons, sseStream_nil, sseFrame]
        · simp only [List.nil_append]
          rw [hdrain, hdr]

/-- Feeding all chunks from a good state reaches a good state at the end
of the stream. -/
theorem feedAll_run {V : Type} (parse : List Nat → ParseOutcome V)
    (f : List Nat → V) {ps : List (List Nat)}
    (hwf : ∀ p ∈ ps, WFPayload parse p) (hok : ∀ p ∈ ps, parse p = .ok (f p)) :
    ∀ (chunks : List (List Nat)) {fed : List Nat} {out : List V} {buf : List Nat},
      GoodState parse f ps fed out buf →
      fed ++ chunks.flatten = sseStream ps →
      GoodState parse f ps (sseStream ps)
        (out ++ (feedAll parse buf chunks).1) (feedAll parse buf chunks).2 := by
  intro chunks
  induction chunks with
  | nil =>
    intro fed out buf hgs hfl
    simp only [List.flatten_nil, List.append_nil] at hfl
    subst hfl
    simpa [feedAll] using hgs
  | cons c cs ih =>
    intro fed out buf hgs hfl
    have hpre : fed ++ c <+: sseStream ps := by
      refine ⟨cs.flatten, ?_⟩
      rw [← hfl]
      simp
    have h2 := goodState_feed parse f hwf hok hgs hpre
    have hfl2 : (fed ++ c) ++ cs.flatten = sseStream ps := by
      rw [← hfl]
      simp
    have h3 := ih h2 hfl2
    simp only [feedAll]
    simpa [List.append_assoc] using h3

/-- A good state at the end of the whole stream has produced every
payload value in order and has an empty buffer. -/
theorem goodState_final {V : Type} (parse : List Nat → ParseOutcome V)
    (f : List Nat → V) {ps : List (List Nat)} {out : List V} {buf : List Nat}
    (hgs : GoodState parse f ps (sseStream ps) out buf) :
    out = ps.map f ∧ buf = [] := by
  obtain ⟨done, rem, hps, hout, hcase⟩ := hgs
  rcases hcase with ⟨hfed, hq⟩ | ⟨hdne, hfednl, hbuf⟩
  · have hbe : buf = sseStream rem := by
      rw [hps, sseStream_append] at hfed
      exact (List.append_cancel_left hfed.symm)
    cases rem with
    | nil =>
      subst hbe
      constructor
      · rw [hout, hps]
        simp
      · rfl
    | cons p rem2 =>
      exfalso
      rcases hq with ⟨hpre, _⟩ | ⟨q, rem3, hrem, i, hi, ht⟩
      · have h1 := hpre.length_le
        rw [hbe, sseStream_cons] at h1
        have h2 : (sseFrame p).length = p.length + 7 := sseFrame_length p
        simp [List.length_append, dataMark] at h1
        omega
      · cases hrem
        rw [hbe, sseStream_cons] at ht
        have hlen := congrArg List.length ht
        rw [List.length_append, sseFrame_length] at hlen
        simp [List.length_append, dataMark, List.length_take] at hlen
        omega
  · exfalso
    have hlen := congrArg List.length hfednl
    rw [hps, sseStream_append] at hlen
    simp [List.length_append] at hlen

/-- The amended order-preservation theorem: for payloads that contain no
newline, parse successfully, and whose strict prefixes all fail with a
truncation error, feeding any chunking of the frame stream and draining
after each chunk until a consuming decode call is no longer possible
produces exactly the payload values in stream order and empties the
buffer. -/
theorem feedAll_chunks_produce_all {V : Type} (parse : List Nat → ParseOutcome V)
    (f : List Nat → V) (ps chunks : List (List Nat))
    (hwf : ∀ p ∈ ps, WFPayload parse p)
    (hok : ∀ p ∈ ps, parse p = .ok (f p))
    (hch : chunks.flatten = sseStream ps) :
    feedAll parse [] chunks = (ps.map f, []) := by
  have hinit : GoodState parse f ps [] [] [] := by
    refine ⟨[], ps, rfl, rfl, Or.inl ⟨rfl, Or.inl ⟨nilPre, ?_⟩⟩⟩
    simp [dataMark]
  have hrun := feedAll_run parse f hwf hok chunks hinit (by simpa using hch)
  have hfin := goodState_final parse f hrun
  have h1 : (feedAll parse [] chunks).1 = ps.map f := by
    have := hfin.1
    simpa using this
  have h2 : (feedAll parse [] chunks).2 = [] := hfin.2
  exact Prod.ext h1 h2

/-! ### Claim theorems -/

/-- C1, counterexample: with the claim's literal driving protocol, the
single well-formed frame `b"data: 12\n"` (payload `12`, a complete JSON
value) delivered as the two chunks `b"data: 1"` and `b"2\n"` produces the
event `1`, not the parse `12` of the frame's payload: the produced
sequence depends on where the chunk boundary falls, because the
no-newline branch of the source parses the partially delivered payload
`1` as a complete JSON value and clears the buffer. -/
theorem c1_chunking_counterexample :
    ([[100, 97, 116, 97, 58, 32, 49], [50, 10]] : List (List Nat)).flatten =
      sseFrame [49, 50] ∧
    miniParse [49, 50] = .ok (.num 12) ∧
    (feedAllClaim miniParse [] [[100, 97, 116, 97, 58, 32, 49], [50, 10]]).1 =
      [.num 1] ∧
    ¬(feedAllClaim miniParse [] [[100, 97, 116, 97, 58, 32, 49], [50, 10]]).1 =
      [.num 12] := by
  refine ⟨rfl, rfl, rfl, ?_⟩
  intro h
  rw [show (feedAllClaim miniParse [] [[100, 97, 116, 97, 58, 32, 49], [50, 10]]).1 =
      [JsonVal.num 1] from rfl] at h
  injection h with h1 h2
  injection h1 with h3
  omega

/-- C1, amended: for every finite sequence of well-formed frames whose
payloads contain no newline byte, parse successfully, and have every
strict prefix fail with a truncation-class error, and for every partition
of the concatenated frame bytes into chunks fed in order (draining after
each chunk until a decode call consumes nothing), the decoder produces
exactly one event per frame, whose value is the parse of that frame's
payload, in stream order, independently of the chunk boundaries, and the
final buffer is empty. -/
theorem sse_order_preservation_amended {V : Type}
    (parse : List Nat → ParseOutcome V) (f : List Nat → V)
    (ps chunks : List (List Nat))
    (hwf : ∀ p ∈ ps, WFPayload parse p)
    (hok : ∀ p ∈ ps, parse p = .ok (f p))
    (hch : chunks.flatten = sseStream ps) :
    feedAll parse [] chunks = (ps.map f, []) :=
  feedAll_chunks_produce_all parse f ps chunks hwf hok hch

/-- C1, witness: the frame `b"data: {}\n"` chunked as `b"data: {"` and
`b"}\n"` produces exactly the one event `{}` and empties the buffer. -/
theorem sse_order_preservation_amended_witness :
    feedAll miniParse [] [[100, 97, 116, 97, 58, 32, 123], [125, 10]] =
      ([JsonVal.obj []], []) :=
  sse_order_preservation_amended miniParse (fun _ => .obj []) [[123, 125]]
    [[100, 97, 116, 97, 58, 32, 123], [125, 10]]
    (by
      intro p hp
      rw [List.mem_singleton] at hp
      subst hp
      refine ⟨by decide, ?_⟩
      intro i hi
      simp only [List.length_cons, List.length_nil] at hi
      interval_cases i <;> rfl)
    (by
      intro p hp
      rw [List.mem_singleton] at hp
      subst hp
      rfl)
    rfl

/-- C2, counterexample: on the buffer `b"data: {\nX"` the first line is a
data line whose payload `{` fails parsing with a truncation error, and
decode returns `NeedMoreData` — but the buffer afterwards is
`b"data: {X"`, not byte-for-byte the original: the newline has been
deleted. -/
theorem c2_counterexample :
    miniParse [123] = .errEof ∧
    decode miniParse [100, 97, 116, 97, 58, 32, 123, 10, 88] =
      (.needMoreData, [100, 97, 116, 97, 58, 32, 123, 88]) ∧
    ¬(decode miniParse [100, 97, 116, 97, 58, 32, 123, 10, 88]).2 =
      [100, 97, 116, 97, 58, 32, 123, 10, 88] := by
  refine ⟨rfl, rfl, ?_⟩
  intro h
  rw [show (decode miniParse [100, 97, 116, 97, 58, 32, 123, 10, 88]).2 =
      [100, 97, 116, 97, 58, 32, 123, 88] from rfl] at h
  exact absurd (congrArg List.length h) (by decide)

/-- C2, amended: when the newline-terminated first line is a data line
whose payload fails parsing with a truncation-class error, decode returns
`NeedMoreData` and consumes exactly one byte — the first newline — so the
buffer afterwards is the first line joined directly to the remainder. -/
theorem c2_truncated_line_joined {V : Type}
    (parse : List Nat → ParseOutcome V) (line rest : List Nat)
    (hnl : ∀ b ∈ line, b ≠ nlByte) (hpre : dataMark <+: line)
    (heof : parse (line.drop 6) = .errEof) :
    decode parse (line ++ nlByte :: rest) = (.needMoreData, line ++ rest) := by
  rw [decode_data_line parse line rest hnl hpre, heof]

/-- C2, witness: the amended behavior at the buffer `b"data: {\nX"`. -/
theorem c2_truncated_line_joined_witness :
    decode miniParse [100, 97, 116, 97, 58, 32, 123, 10, 88] =
      (.needMoreData, [100, 97, 116, 97, 58, 32, 123, 88]) :=
  c2_truncated_line_joined miniParse [100, 97, 116, 97, 58, 32, 123] [88]
    (by decide) (by decide) rfl

/-- C3: evaluation of the code at the failing input `b"data: x\nrest"`.
The payload `x` fails parsing with a non-truncation error and the claim
says the frame is consumed, leaving `b"rest"`.  The code instead returns
`Error` with the buffer still holding `b"data: x\n"`: the bad frame is
kept and the four bytes after the newline are discarded, so the very next
call returns `Error` for the same frame again. -/
theorem c3_code_behavior :
    miniParse [120] = .errOther ∧
    decode miniParse [100, 97, 116, 97, 58, 32, 120, 10, 114, 101, 115, 116] =
      (.error, [100, 97, 116, 97, 58, 32, 120, 10]) ∧
    decode miniParse [100, 97, 116, 97, 58, 32, 120, 10] =
      (.error, [100, 97, 116, 97, 58, 32, 120, 10]) :=
  ⟨rfl, rfl, rfl⟩

/-- C4: a newline-terminated first line that does not start with
`b"data: "` (the empty keep-alive line included) produces neither an
event nor an error: decode returns `NeedMoreData` and the buffer
afterwards is exactly the bytes after the first newline. -/
theorem c4_non_data_line_skipped {V : Type}
    (parse : List Nat → ParseOutcome V) (line rest : List Nat)
    (hnl : ∀ b ∈ line, b ≠ nlByte) (hnp : ¬dataMark <+: line) :
    decode parse (line ++ nlByte :: rest) = (.needMoreData, rest) :=
  decode_skip_line parse line rest hnl hnp

/-- C4, witness: skipping the empty line in the buffer `b"\nd"`. -/
theorem c4_non_data_line_skipped_witness :
    decode miniParse [10, 100] = (.needMoreData, [100]) :=
  c4_non_data_line_skipped miniParse [] [100] (by decide) (by decide)

/-- C5: a newline-free buffer starting with `b"data: "` whose payload
parses as a complete JSON value yields `Produced` with that value and the
buffer is cleared to length zero. -/
theorem c5_no_newline_success_clears {V : Type}
    (parse : List Nat → ParseOutcome V) (src : List Nat) (v : V)
    (hnl : ∀ b ∈ src, b ≠ nlByte) (hpre : dataMark <+: src)
    (hok : parse (src.drop 6) = .ok v) :
    decode parse src = (.produced v, []) := by
  rw [decode_no_nl parse src hnl hpre, hok]

/-- C5, witness: the newline-free buffer `b"data: {}"` produces `{}` and
clears the buffer. -/
theorem c5_no_newline_success_clears_witness :
    decode miniParse [100, 97, 116, 97, 58, 32, 123, 125] =
      (.produced (.obj []), []) :=
  c5_no_newline_success_clears miniParse [100, 97, 116, 97, 58, 32, 123, 125]
    (.obj []) (by decide) (by decide) rfl

/-- C6: on the empty buffer decode returns `NeedMoreData` and leaves the
buffer empty, so any number of repeated calls leaves the state
unchanged. -/
theorem c6_empty_buffer_idempotent {V : Type}
    (parse : List Nat → ParseOutcome V) :
    decode parse ([] : List Nat) = (.needMoreData, []) ∧
    ∀ n : Nat, (fun b : List Nat => (decode parse b).2)^[n] [] = [] := by
  refine ⟨rfl, ?_⟩
  intro n
  induction n with
  | zero => rfl
  | succ m ih =>
    rw [Function.iterate_succ_apply', ih]
    rfl

/-- C7: decode is total and panic-free on every buffer: the variant with
an explicit bounds check at every slice index, length subtraction and
buffer advance of the source always succeeds and agrees with decode. -/
theorem c7_decode_total {V : Type} (parse : List Nat → ParseOutcome V)
    (src : List Nat) : decodeChecked parse src = some (decode parse src) :=
  decodeChecked_eq parse src

/-- C8, counterexample: after decoding the buffer `b"data: x\nrest"` (a
data line with a malformed payload) the buffer is `b"data: x\n"`, which is
not a contiguous suffix of the original buffer — the bytes were not
removed from the head only. -/
theorem c8_counterexample :
    ¬((decode miniParse [100, 97, 116, 97, 58, 32, 120, 10, 114, 101, 115, 116]).2 <:+
      [100, 97, 116, 97, 58, 32, 120, 10, 114, 101, 115, 116]) := by
  rw [show (decode miniParse [100, 97, 116, 97, 58, 32, 120, 10, 114, 101, 115, 116]).2 =
      [100, 97, 116, 97, 58, 32, 120, 10] from rfl]
  decide

/-- C8, amended: decode never reorders bytes — the buffer after every call
is a subsequence of the buffer before it — but consumption is not always
from the head: the truncation path deletes the interior newline byte and
the malformed-line path drops the bytes behind the newline. -/
theorem c8_buffer_sublist {V : Type} (parse : List Nat → ParseOutcome V)
    (src : List Nat) : ((decode parse src).2).Sublist src :=
  decode_snd_sublist parse src

/-- C9: a newline-free buffer starting with `b"data: "` whose payload
fails parsing with a non-truncation error makes decode return `Error`
with the buffer completely unchanged, so an immediate second call returns
the same `Error` again. -/
theorem c9_no_newline_error_keeps_buffer {V : Type}
    (parse : List Nat → ParseOutcome V) (src : List Nat)
    (hnl : ∀ b ∈ src, b ≠ nlByte) (hpre : dataMark <+: src)
    (herr : parse (src.drop 6) = .errOther) :
    decode parse src = (.error, src) ∧
    decode parse ((decode parse src).2) = (.error, src) := by
  have h1 : decode parse src = (.error, src) := by
    rw [decode_no_nl parse src hnl hpre, herr]
  exact ⟨h1, by rw [h1]; exact h1⟩

/-- C9, witness: the newline-free buffer `b"data: x"` errors and is left
unchanged, and errors again on the next call. -/
theorem c9_no_newline_error_keeps_buffer_witness :
    decode miniParse [100, 97, 116, 97, 58, 32, 120] =
      (.error, [100, 97, 116, 97, 58, 32, 120]) ∧
    decode miniParse ((decode miniParse [100, 97, 116, 97, 58, 32, 120]).2) =
      (.error, [100, 97, 116, 97, 58, 32, 120]) :=
  c9_no_newline_error_keeps_buffer miniParse [100, 97, 116, 97, 58, 32, 120]
    (by decide) (by decide) rfl

/-- C10: on the truncation path of the newline case the buffer afterwards
is the first line concatenated directly with the bytes that followed the
newline — the newline byte is deleted, the two physical lines are joined
without separator, and if neither side contains another newline the
joined buffer contains no newline byte at all. -/
theorem c10_newline_deleted_on_truncation {V : Type}
    (parse : List Nat → ParseOutcome V) (line rest : List Nat)
    (hnl : ∀ b ∈ line, b ≠ nlByte) (hpre : dataMark <+: line)
    (heof : parse (line.drop 6) = .errEof) :
    (decode parse (line ++ nlByte :: rest)).2 = line ++ rest ∧
    (decode parse (line ++ nlByte :: rest)).1 = .needMoreData ∧
    ((∀ b ∈ rest, b ≠ nlByte) →
      ∀ b ∈ (decode parse (line ++ nlByte :: rest)).2, b ≠ nlByte) := by
  have h : decode parse (line ++ nlByte :: rest) = (.needMoreData, line ++ rest) := by
    rw [decode_data_line parse line rest hnl hpre, heof]
  refine ⟨by rw [h], by rw [h], ?_⟩
  intro hrest b hb
  rw [h] at hb
  rcases List.mem_append.mp hb with hm | hm
  · exact hnl b hm
  · exact hrest b hm

/-- C10, witness: decoding `b"data: {\nX"` joins the lines into
`b"data: {X"`, which contains no newline byte. -/
theorem c10_newline_deleted_on_truncation_witness :
    (decode miniParse [100, 97, 116, 97, 58, 32, 123, 10, 88]).2 =
      [100, 97, 116, 97, 58, 32, 123, 88] ∧
    ∀ b ∈ (decode miniParse [100, 97, 116, 97, 58, 32, 123, 10, 88]).2, b ≠ nlByte := by
  have h := c10_newline_deleted_on_truncation miniParse
    [100, 97, 116, 97, 58, 32, 123] [88] (by decide) (by decide) rfl
  exact ⟨h.1, h.2.2 (by decide)⟩

end SseDecode
